import Mathlib

/-!
Shallow embedding of `src/election.py` (single-round election simulator).

Modelling conventions:
* Python `float` scores and weights are embedded as `ℚ` (the source only
  adds and compares them).
* Python `sorted(key=f)` is a stable ascending sort, embedded as
  `sortByKey`; `sorted(key=f, reverse=True)` is a stable descending sort
  (CPython documents that `reverse=True` keeps equal elements in their
  original order), embedded as `sortByKeyDesc`.  Both are realised with
  `List.insertionSort`, which inserts earlier elements in front of later
  elements with an equal key, hence is stable.
* Mutation of a `Candidate`'s vote counter through an object reference is
  embedded by explicit state passing: `Person.vote` receives the candidate
  list and returns the updated list; the Python object reference held in
  the `agreements` dicts is embedded as the candidate's index in the list.
* Python exceptions are embedded with `Except` / `Option`: the bare
  `raise Exception` on an issue-name mismatch in `Person.vote` becomes
  `VoteError.structuralMismatch`, and `agreements[0]` on an empty list
  (Python `IndexError`) becomes `VoteError.indexError`.
* The unseeded global randomness (`np.random.choice`, `np.random.normal`)
  is embedded by passing the draw outcomes in explicitly (`SampleDraw`):
  the categorical stance draw becomes an index into the stance list, the
  normal draw outcome becomes an arbitrary rational.
-/

namespace ElectionSim

instance {ε α : Type} [DecidableEq ε] [DecidableEq α] : DecidableEq (Except ε α) := fun x y =>
  match x, y with
  | .error e, .error e' => decidable_of_iff (e = e') (by simp)
  | .ok a, .ok a' => decidable_of_iff (a = a') (by simp)
  | .error _, .ok _ => isFalse (by simp)
  | .ok _, .error _ => isFalse (by simp)

/-- Stable ascending sort by key, modelling Python `sorted(xs, key=f)`. -/
def sortByKey {α β : Type} [LinearOrder β] (f : α → β) (l : List α) : List α :=
  l.insertionSort (fun x y => f x ≤ f y)

/-- Stable descending sort by key, modelling Python
`sorted(xs, key=f, reverse=True)`. -/
def sortByKeyDesc {α β : Type} [LinearOrder β] (f : α → β) (l : List α) : List α :=
  l.insertionSort (fun x y => f y ≤ f x)

/-- `class Issue`: a named issue with its legal stances and the aggregate
tally `vote_totals`, initialised to zero for every declared stance by
`mkIssue` (the `__init__` of the Python class). -/
structure Issue where
  name : String
  stances : List String
  vote_totals : List (String × Nat)
deriving DecidableEq

/-- `Issue.__init__`: `vote_totals = {s: 0 for s in stances}` (a Python
dict with the keys in declared stance order, embedded as an association
list in that order). -/
def mkIssue (name : String) (stances : List String) : Issue :=
  ⟨name, stances, stances.map (fun s => (s, 0))⟩

/-- `class View`: an (issue, stance, weight) triple; the Python default
weight is `1`. -/
structure View where
  issue : Issue
  stance : String
  weight : ℚ
deriving DecidableEq

/-- `class Candidate`: name, views (sorted by issue name by the
constructor `mkCandidate`) and the mutable vote counter. -/
structure Candidate where
  name : String
  views : List View
  votes : Nat
deriving DecidableEq

/-- `Candidate.receive_vote`: `self.votes += 1`. -/
def Candidate.receive_vote (c : Candidate) : Candidate :=
  { c with votes := c.votes + 1 }

/-- `Candidate.__init__`: stores the views sorted by issue name and a vote
counter starting at 0. -/
def mkCandidate (name : String) (views : List View) : Candidate :=
  ⟨name, sortByKey (fun v : View => v.issue.name) views, 0⟩

/-- `class Person`: a voter holding a list of views (sorted by issue name
by the constructor `mkPerson` below). -/
structure Person where
  views : List View
deriving DecidableEq

/-- `class IssueVotes`: the per-issue stance tally used by
`generate_majority_candidate`; `stance_votes = {s: 0 for s in
issue.stances}` is a dict with keys in declared stance order, embedded as
an association list in that order. -/
structure IssueVotes where
  issue : Issue
  stance_votes : List (String × Nat)
deriving DecidableEq

/-- `IssueVotes.__init__`. -/
def mkIssueVotes (issue : Issue) : IssueVotes :=
  ⟨issue, issue.stances.map (fun s => (s, 0))⟩

/-- The loop body of `IssueVotes.get_majority_stance`:
`biggest = 0; maj_stance = None; for k, v in stance_votes.items(): if v >
biggest: maj_stance = k; biggest = v`. -/
def majLoop : Nat → Option String → List (String × Nat) → Option String
  | _, m, [] => m
  | b, m, kv :: rest => if b < kv.2 then majLoop kv.2 (some kv.1) rest else majLoop b m rest

/-- `IssueVotes.get_majority_stance`. -/
def IssueVotes.get_majority_stance (iv : IssueVotes) : Option String :=
  majLoop 0 none iv.stance_votes

/-- Increment the value stored under key `s` in an association list;
`none` models the Python `KeyError` when the key is absent. -/
def incKey : List (String × Nat) → String → Option (List (String × Nat))
  | [], _ => none
  | kv :: rest, s =>
    if kv.1 = s then some ((kv.1, kv.2 + 1) :: rest)
    else (incKey rest s).map (fun r => kv :: r)

/-- `IssueVotes.vote_for_stance`: `self.stance_votes[stance] += 1`. -/
def IssueVotes.vote_for_stance (iv : IssueVotes) (s : String) : Option IssueVotes :=
  (incKey iv.stance_votes s).map (fun sv => ⟨iv.issue, sv⟩)

/-- The two ways `Person.vote` can raise: the explicit `raise Exception`
on an issue-name mismatch, and the `IndexError` of `agreements[0]` when
the candidate list is empty. -/
inductive VoteError where
  | structuralMismatch
  | indexError
deriving DecidableEq

/-- The inner loop of `Person.vote` for one candidate:
`for i, j in zip(c.views, self.views): if i.issue.name != j.issue.name:
raise Exception; if i.stance == j.stance: agreements += 1 * j.weight`.
First argument is the candidate's views, second the person's views. -/
def scoreViews : List View → List View → Except VoteError ℚ
  | cv :: cvs, pv :: pvs =>
    if cv.issue.name ≠ pv.issue.name then .error .structuralMismatch
    else (scoreViews cvs pvs).map
      (fun rest => (if cv.stance = pv.stance then pv.weight else 0) + rest)
  | _, _ => .ok 0

/-- The outer loop of `Person.vote` building the `agreements` list, one
`{'candidate': c, 'agreements': score}` dict per candidate in input
order.  The Python object reference to the candidate is embedded as the
candidate's index in the list, threaded through the counter `k`. -/
def scoreCandidates (p : Person) : List Candidate → Nat → Except VoteError (List (Nat × ℚ))
  | [], _ => .ok []
  | c :: cs, k =>
    match scoreViews c.views p.views with
    | .error e => .error e
    | .ok s =>
      match scoreCandidates p cs (k + 1) with
      | .error e => .error e
      | .ok rest => .ok ((k, s) :: rest)

/-- In-place mutation of one candidate through its reference, embedded as
an update of the list at the candidate's index. -/
def updateAt (cs : List Candidate) (k : Nat) : List Candidate :=
  match cs.get? k with
  | none => cs
  | some c => cs.set k c.receive_vote

/-- `Person.vote`: score every candidate, stable-sort the agreement dicts
by score descending, take `agreements[0]` and call `receive_vote` on the
chosen candidate.  Returns the updated candidate list. -/
def Person.vote (p : Person) (cs : List Candidate) : Except VoteError (List Candidate) :=
  match scoreCandidates p cs 0 with
  | .error e => .error e
  | .ok ags =>
    match (sortByKeyDesc Prod.snd ags).head? with
    | none => .error .indexError
    | some top => .ok (updateAt cs top.1)

/-- The voting pass of `run_election`:
`for pop in populations: for person in pop.people: person.vote(candidates)`,
over the flattened list of voters. -/
def runVotingPass : List Person → List Candidate → Except VoteError (List Candidate)
  | [], cs => .ok cs
  | p :: ps, cs =>
    match p.vote cs with
    | .error e => .error e
    | .ok cs' => runVotingPass ps cs'

/-- Total of all candidates' vote counters. -/
def sumVotes (cs : List Candidate) : Nat :=
  (cs.map Candidate.votes).sum

/-- `candidates = sorted(candidates, key=lambda x: x.votes, reverse=True)`
in `run_election`. -/
def rankCandidates (cs : List Candidate) : List Candidate :=
  sortByKeyDesc Candidate.votes cs

/-- `winner = candidates[0]` after ranking. -/
def electionWinner (cs : List Candidate) : Option Candidate :=
  (rankCandidates cs).head?

/-- `loser = candidates[-1]` after ranking. -/
def electionLoser (cs : List Candidate) : Option Candidate :=
  (rankCandidates cs).getLast?

/-- `class PopulationView`: per-(population, issue) sampling parameters. -/
structure PopulationView where
  issue : Issue
  proportions : List (String × ℚ)
  weight : ℚ
  weight_variance : ℚ
deriving DecidableEq

/-- One voter-issue random outcome: the index picked by the categorical
`np.random.choice` over the stance list, and the raw value returned by
`np.random.normal(mean, std)` before clamping. -/
structure SampleDraw where
  stanceIdx : Nat
  weightDraw : ℚ
deriving DecidableEq

/-- One iteration of `Person._decide_views`: build the probability list
(`KeyError`, hence `none`, if a stance is missing from the proportions
dict), draw a stance, and clamp the normal draw with
`max(0, np.random.normal(...))`. -/
def decide_view (pv : PopulationView) (d : SampleDraw) : Option View :=
  match pv.issue.stances.mapM (fun s => pv.proportions.lookup s) with
  | none => none
  | some _ =>
    match pv.issue.stances.get? d.stanceIdx with
    | none => none
    | some choice => some ⟨pv.issue, choice, max 0 d.weightDraw⟩

/-- `Person._decide_views`: one view per population view, consuming one
random draw per issue. -/
def decide_views : List PopulationView → List SampleDraw → Option (List View)
  | [], _ => some []
  | pv :: pvs, d :: ds =>
    match decide_view pv d with
    | none => none
    | some v =>
      match decide_views pvs ds with
      | none => none
      | some rest => some (v :: rest)
  | _ :: _, [] => none

/-- `Person.__init__`: decide the views, then sort them by issue name. -/
def mkPerson (pvs : List PopulationView) (ds : List SampleDraw) : Option Person :=
  (decide_views pvs ds).map (fun vs => ⟨sortByKey (fun v : View => v.issue.name) vs⟩)

/-- One entry of the `issues` configuration list. -/
structure IssueSettings where
  name : String
  stances : List String
deriving DecidableEq

/-- One entry of a candidate's `views` configuration list. -/
structure CandidateView where
  issue : String
  stance : String
deriving DecidableEq

/-- One entry of the `candidates` configuration list. -/
structure CandidateSettings where
  name : String
  views : List CandidateView
deriving DecidableEq

/-- `generate_issues`: build each `Issue` and sort the list by name. -/
def generate_issues (isettings : List IssueSettings) : List Issue :=
  sortByKey Issue.name (isettings.map (fun i => mkIssue i.name i.stances))

/-- `generate_candidates`: for each candidate, sort its configured views
by issue name and `zip` them with the (sorted) issue list — note that
`zip` truncates at the shorter list and no validation is performed. -/
def generate_candidates (csettings : List CandidateSettings) (issues : List Issue) :
    List Candidate :=
  csettings.map (fun c =>
    let cviews := sortByKey CandidateView.issue c.views
    mkCandidate c.name ((cviews.zip issues).map (fun pr => View.mk pr.2 pr.1.stance 1)))

/-- Specification-side rendering of the claimed agreement-score formula:
the sum of the voter's weights over exactly the compared positions where
the voter's stance equals the candidate's stance (candidate views first,
voter views second, as in the source's `zip(c.views, self.views)`). -/
def specScore (cvs pvs : List View) : ℚ :=
  (((cvs.zip pvs).filter (fun pr => pr.1.stance == pr.2.stance)).map
    (fun pr => pr.2.weight)).sum

/-- Specification-side: the first element of the list attaining the
maximum key (ties favour the earlier element). -/
def firstMaxBy {α β : Type} [LinearOrder β] (f : α → β) : List α → Option α
  | [] => none
  | a :: l =>
    match firstMaxBy f l with
    | none => some a
    | some b => if f a < f b then some b else some a

/-- Specification-side: the last element of the list attaining the
minimum key (ties favour the later element). -/
def lastMinBy {α β : Type} [LinearOrder β] (f : α → β) : List α → Option α
  | [] => none
  | a :: l =>
    match lastMinBy f l with
    | none => some a
    | some b => if f b ≤ f a then some b else some a

/-- Concrete fixture: a two-stance issue named `a` (fresh tallies). -/
def wIssueA : Issue := ⟨"a", ["y", "n"], [("y", 0), ("n", 0)]⟩

/-- Concrete fixture: a two-stance issue named `b` (fresh tallies). -/
def wIssueB : Issue := ⟨"b", ["y", "n"], [("y", 0), ("n", 0)]⟩

/-- Concrete fixture: a two-stance issue named `apple` (fresh tallies). -/
def wIssueApple : Issue := ⟨"apple", ["y", "n"], [("y", 0), ("n", 0)]⟩

/-- Concrete fixture: a two-stance issue named `banana` (fresh tallies). -/
def wIssueBanana : Issue := ⟨"banana", ["y", "n"], [("y", 0), ("n", 0)]⟩

/-- Concrete fixture: a candidate with no views and no votes. -/
def wTieA : Candidate := ⟨"A", [], 0⟩

/-- Concrete fixture: a second candidate with no views and no votes. -/
def wTieB : Candidate := ⟨"B", [], 0⟩

section SortLemmas

variable {α β : Type} [LinearOrder β]

instance (f : α → β) : IsTotal α (fun x y => f y ≤ f x) :=
  ⟨fun a b => le_total (f b) (f a)⟩

instance (f : α → β) : IsTrans α (fun x y => f y ≤ f x) :=
  ⟨fun _ _ _ h1 h2 => le_trans h2 h1⟩

lemma orderedInsert_ne_nil (f : α → β) (a : α) (s : List α) :
    List.orderedInsert (fun x y => f y ≤ f x) a s ≠ [] := by
  cases s with
  | nil => simp
  | cons b t => simp only [List.orderedInsert]; split <;> simp

lemma head?_orderedInsert (f : α → β) (a : α) (s : List α) :
    (List.orderedInsert (fun x y => f y ≤ f x) a s).head? =
      (match s.head? with
      | none => some a
      | some b => if f b ≤ f a then some a else some b) := by
  cases s with
  | nil => rfl
  | cons b t =>
    simp only [List.orderedInsert, List.head?_cons]
    split <;> simp

lemma firstMaxBy_cons (f : α → β) (a : α) (t : List α) :
    firstMaxBy f (a :: t) =
      (match firstMaxBy f t with
      | none => some a
      | some c => if f a < f c then some c else some a) := rfl

lemma lastMinBy_cons (f : α → β) (a : α) (t : List α) :
    lastMinBy f (a :: t) =
      (match lastMinBy f t with
      | none => some a
      | some c => if f c ≤ f a then some c else some a) := rfl

lemma head?_sortByKeyDesc (f : α → β) (l : List α) :
    (sortByKeyDesc f l).head? = firstMaxBy f l := by
  induction l with
  | nil => rfl
  | cons a t ih =>
    have step : (sortByKeyDesc f (a :: t)).head? =
        (match (sortByKeyDesc f t).head? with
        | none => some a
        | some b => if f b ≤ f a then some a else some b) :=
      head?_orderedInsert f a (sortByKeyDesc f t)
    rw [step, ih, firstMaxBy_cons]
    cases h : firstMaxBy f t with
    | none => rfl
    | some b =>
      show (if f b ≤ f a then some a else some b) = (if f a < f b then some b else some a)
      rcases le_or_lt (f b) (f a) with hba | hab
      · rw [if_pos hba, if_neg (not_lt.mpr hba)]
      · rw [if_neg (not_le.mpr hab), if_pos hab]

lemma getLast?_orderedInsert (f : α → β) (a : α) (s : List α)
    (hs : List.Sorted (fun x y => f y ≤ f x) s) :
    (List.orderedInsert (fun x y => f y ≤ f x) a s).getLast? =
      (match s.getLast? with
      | none => some a
      | some z => if f z ≤ f a then some z else some a) := by
  induction s with
  | nil => rfl
  | cons b t ih =>
    rw [List.sorted_cons] at hs
    obtain ⟨hb, ht⟩ := hs
    by_cases hab : f b ≤ f a
    · rw [List.orderedInsert, if_pos hab]
      cases hz : (b :: t).getLast? with
      | none => simp at hz
      | some z =>
        have hzmem : z ∈ b :: t := List.mem_of_mem_getLast? (by rw [hz]; rfl)
        have hzb : f z ≤ f b := by
          rcases List.mem_cons.mp hzmem with h | h
          · rw [h]
          · exact hb z h
        show (a :: b :: t).getLast? = _
        rw [List.getLast?_cons_cons]
        simp only [hz]
        rw [if_pos (le_trans hzb hab)]
    · rw [List.orderedInsert, if_neg hab]
      cases t with
      | nil =>
        show (b :: [a]).getLast? = _
        rw [List.getLast?_cons_cons]
        show some a = (match some b with
          | none => some a
          | some z => if f z ≤ f a then some z else some a)
        show some a = (if f b ≤ f a then some b else some a)
        rw [if_neg hab]
      | cons d t' =>
        obtain ⟨c, cs, hccs⟩ :
            ∃ c cs, List.orderedInsert (fun x y => f y ≤ f x) a (d :: t') = c :: cs := by
          cases hoi : List.orderedInsert (fun x y => f y ≤ f x) a (d :: t') with
          | nil => exact absurd hoi (orderedInsert_ne_nil f a (d :: t'))
          | cons c cs => exact ⟨c, cs, rfl⟩
        rw [hccs, List.getLast?_cons_cons, ← hccs, ih ht]
        show _ = (match (b :: d :: t').getLast? with
          | none => some a
          | some z => if f z ≤ f a then some z else some a)
        rw [List.getLast?_cons_cons]

lemma getLast?_sortByKeyDesc (f : α → β) (l : List α) :
    (sortByKeyDesc f l).getLast? = lastMinBy f l := by
  induction l with
  | nil => rfl
  | cons a t ih =>
    show (List.orderedInsert (fun x y => f y ≤ f x) a
      (List.insertionSort (fun x y => f y ≤ f x) t)).getLast? = _
    rw [getLast?_orderedInsert f a _ (List.sorted_insertionSort _ t)]
    have ht : (List.insertionSort (fun x y => f y ≤ f x) t).getLast? = lastMinBy f t := ih
    rw [ht, lastMinBy_cons]

lemma firstMaxBy_eq_none_iff (f : α → β) (l : List α) :
    firstMaxBy f l = none ↔ l = [] := by
  cases l with
  | nil => simp [firstMaxBy]
  | cons a t =>
    rw [firstMaxBy_cons]
    constructor
    · intro h
      cases ht : firstMaxBy f t <;> simp only [ht] at h
      · exact absurd h (by simp)
      · split at h <;> simp at h
    · intro h
      simp at h

lemma firstMaxBy_spec (f : α → β) (l : List α) (hne : l ≠ []) :
    ∃ k, ∃ hk : k < l.length, firstMaxBy f l = some (l.get ⟨k, hk⟩) ∧
      (∀ j (hj : j < l.length), f (l.get ⟨j, hj⟩) ≤ f (l.get ⟨k, hk⟩)) ∧
      (∀ j (hj : j < k), f (l.get ⟨j, hj.trans hk⟩) < f (l.get ⟨k, hk⟩)) := by
  induction l with
  | nil => exact absurd rfl hne
  | cons a t ih =>
    cases t with
    | nil =>
      refine ⟨0, by simp, rfl, ?_, ?_⟩
      · intro j hj
        have hj0 : j = 0 := Nat.lt_one_iff.mp (by simpa using hj)
        subst hj0
        exact le_refl _
      · intro j hj
        exact absurd hj (Nat.not_lt_zero j)
    | cons b t' =>
      obtain ⟨k', hk', heq', hmax', hfirst'⟩ := ih (by simp)
      rcases lt_or_le (f a) (f ((b :: t').get ⟨k', hk'⟩)) with hlt | hle
      · have hk1 : k' + 1 < (a :: b :: t').length := by simpa using hk'
        refine ⟨k' + 1, hk1, ?_, ?_, ?_⟩
        · rw [firstMaxBy_cons]
          simp only [heq']
          rw [if_pos hlt]
          rfl
        · intro j hj
          cases j with
          | zero =>
            show f a ≤ f ((b :: t').get ⟨k', hk'⟩)
            exact le_of_lt hlt
          | succ j' =>
            have hj' : j' < (b :: t').length := Nat.lt_of_succ_lt_succ hj
            show f ((b :: t').get ⟨j', hj'⟩) ≤ f ((b :: t').get ⟨k', hk'⟩)
            exact hmax' j' hj'
        · intro j hj
          cases j with
          | zero =>
            show f a < f ((b :: t').get ⟨k', hk'⟩)
            exact hlt
          | succ j' =>
            have hj' : j' < k' := Nat.lt_of_succ_lt_succ hj
            show f ((b :: t').get ⟨j', hj'.trans hk'⟩) < f ((b :: t').get ⟨k', hk'⟩)
            exact hfirst' j' hj'
      · refine ⟨0, by simp, ?_, ?_, ?_⟩
        · rw [firstMaxBy_cons]
          simp only [heq']
          rw [if_neg (not_lt.mpr hle)]
          rfl
        · intro j hj
          cases j with
          | zero => exact le_refl _
          | succ j' =>
            have hj' : j' < (b :: t').length := Nat.lt_of_succ_lt_succ hj
            show f ((b :: t').get ⟨j', hj'⟩) ≤ f a
            exact le_trans (hmax' j' hj') hle
        · intro j hj
          exact absurd hj (Nat.not_lt_zero j)

end SortLemmas

section ScoreLemmas

lemma scoreViews_nil_left (pvs : List View) : scoreViews [] pvs = .ok 0 := by
  cases pvs <;> rfl

lemma scoreViews_nil_right (cvs : List View) : scoreViews cvs [] = .ok 0 := by
  cases cvs <;> rfl

lemma scoreViews_error_eq : ∀ (cvs pvs : List View) (e : VoteError),
    scoreViews cvs pvs = .error e → e = .structuralMismatch := by
  intro cvs
  induction cvs with
  | nil => intro pvs e h; rw [scoreViews_nil_left] at h; exact absurd h (by simp)
  | cons cv cvs ih =>
    intro pvs e h
    cases pvs with
    | nil => rw [scoreViews_nil_right] at h; exact absurd h (by simp)
    | cons pv pvs =>
      rw [scoreViews] at h
      by_cases hname : cv.issue.name ≠ pv.issue.name
      · rw [if_pos hname] at h
        exact (Except.error.inj h).symm
      · rw [if_neg hname] at h
        cases hs : scoreViews cvs pvs with
        | error e' =>
          simp only [hs, Except.map] at h
          rw [← Except.error.inj h]
          exact ih pvs e' hs
        | ok s =>
          simp only [hs, Except.map] at h
          exact Except.noConfusion h

lemma specScore_nil_left (pvs : List View) : specScore [] pvs = 0 := rfl

lemma specScore_cons (cv pv : View) (cvs pvs : List View) :
    specScore (cv :: cvs) (pv :: pvs) =
      (if cv.stance = pv.stance then pv.weight else 0) + specScore cvs pvs := by
  by_cases hst : cv.stance = pv.stance
  · simp [specScore, List.filter_cons, hst]
  · simp [specScore, List.filter_cons, hst]

lemma scoreViews_ok_of_aligned : ∀ (cvs pvs : List View),
    cvs.length = pvs.length →
    (∀ j (hc : j < cvs.length) (hp : j < pvs.length),
      (cvs.get ⟨j, hc⟩).issue.name = (pvs.get ⟨j, hp⟩).issue.name) →
    scoreViews cvs pvs = .ok (specScore cvs pvs) := by
  intro cvs
  induction cvs with
  | nil => intro pvs _ _; rw [scoreViews_nil_left, specScore_nil_left]
  | cons cv cvs ih =>
    intro pvs hlen halign
    cases pvs with
    | nil => simp at hlen
    | cons pv pvs =>
      have h0 : cv.issue.name = pv.issue.name := halign 0 (by simp) (by simp)
      have hlen' : cvs.length = pvs.length := by simpa using hlen
      have halign' : ∀ j (hc : j < cvs.length) (hp : j < pvs.length),
          (cvs.get ⟨j, hc⟩).issue.name = (pvs.get ⟨j, hp⟩).issue.name := by
        intro j hc hp
        exact halign (j + 1) (by simpa using hc) (by simpa using hp)
      rw [scoreViews, if_neg (not_not_intro h0), ih pvs hlen' halign']
      rw [specScore_cons]
      rfl

lemma specScore_nonneg (cvs pvs : List View) (h : ∀ v ∈ pvs, 0 ≤ v.weight) :
    0 ≤ specScore cvs pvs := by
  apply List.sum_nonneg
  intro x hx
  simp only [List.mem_map] at hx
  obtain ⟨pr, hpr, hx⟩ := hx
  obtain ⟨c, v⟩ := pr
  have hzip : (c, v) ∈ cvs.zip pvs := List.mem_of_mem_filter hpr
  have hv : v ∈ pvs := (List.of_mem_zip hzip).2
  rw [← hx]
  exact h v hv

lemma scoreViews_mismatch : ∀ (cvs pvs : List View),
    (∃ pr ∈ cvs.zip pvs, pr.1.issue.name ≠ pr.2.issue.name) →
    scoreViews cvs pvs = .error .structuralMismatch := by
  intro cvs
  induction cvs with
  | nil => intro pvs h; simp at h
  | cons cv cvs ih =>
    intro pvs h
    cases pvs with
    | nil => simp at h
    | cons pv pvs =>
      rw [scoreViews]
      by_cases hname : cv.issue.name ≠ pv.issue.name
      · rw [if_pos hname]
      · rw [if_neg hname]
        have htail : ∃ pr ∈ cvs.zip pvs, pr.1.issue.name ≠ pr.2.issue.name := by
          obtain ⟨pr, hmem, hne⟩ := h
          rcases List.mem_cons.mp (by simpa using hmem) with heq | hmem'
          · rw [heq] at hne
            exact absurd hne hname
          · exact ⟨pr, hmem', hne⟩
        rw [ih pvs htail]
        rfl

end ScoreLemmas

section VoteLemmas

lemma scoreCandidates_ok (p : Person) :
    ∀ (cs : List Candidate) (k0 : Nat) (ags : List (Nat × ℚ)),
      scoreCandidates p cs k0 = .ok ags →
      ags.length = cs.length ∧
      ∀ j (hja : j < ags.length) (hjc : j < cs.length),
        (ags.get ⟨j, hja⟩).1 = k0 + j ∧
        scoreViews ((cs.get ⟨j, hjc⟩).views) p.views = .ok (ags.get ⟨j, hja⟩).2 := by
  intro cs
  induction cs with
  | nil =>
    intro k0 ags h
    rw [scoreCandidates] at h
    have hags : ags = [] := (Except.ok.inj h).symm
    subst hags
    refine ⟨rfl, ?_⟩
    intro j hja
    exact absurd hja (Nat.not_lt_zero j)
  | cons c cs ih =>
    intro k0 ags h
    rw [scoreCandidates] at h
    cases hsv : scoreViews c.views p.views with
    | error e =>
      simp only [hsv] at h
      exact Except.noConfusion h
    | ok s =>
      simp only [hsv] at h
      cases hsc : scoreCandidates p cs (k0 + 1) with
      | error e =>
        simp only [hsc] at h
        exact Except.noConfusion h
      | ok rest =>
        simp only [hsc] at h
        have hags : ags = (k0, s) :: rest := (Except.ok.inj h).symm
        subst hags
        obtain ⟨hlen, hpt⟩ := ih (k0 + 1) rest hsc
        refine ⟨by simpa using hlen, ?_⟩
        intro j hja hjc
        cases j with
        | zero =>
          refine ⟨by simp, ?_⟩
          exact hsv
        | succ j' =>
          have hja' : j' < rest.length := Nat.lt_of_succ_lt_succ hja
          have hjc' : j' < cs.length := Nat.lt_of_succ_lt_succ hjc
          obtain ⟨h1, h2⟩ := hpt j' hja' hjc'
          constructor
          · show (rest.get ⟨j', hja'⟩).1 = k0 + (j' + 1)
            rw [h1]
            omega
          · exact h2

/-- Full characterisation of a successful `Person.vote`: the vote goes to
the first candidate (in input order) achieving the maximum agreement
score, whose counter alone is incremented. -/
lemma vote_ok_char {p : Person} {cs cs' : List Candidate}
    (h : Person.vote p cs = .ok cs') :
    ∃ k, ∃ hk : k < cs.length, ∃ sk : ℚ,
      scoreViews ((cs.get ⟨k, hk⟩).views) p.views = .ok sk ∧
      (∀ j (hj : j < cs.length) (sj : ℚ),
        scoreViews ((cs.get ⟨j, hj⟩).views) p.views = .ok sj → sj ≤ sk) ∧
      (∀ j (hj : j < k) (sj : ℚ),
        scoreViews ((cs.get ⟨j, hj.trans hk⟩).views) p.views = .ok sj → sj < sk) ∧
      cs' = cs.set k ((cs.get ⟨k, hk⟩).receive_vote) := by
  rw [Person.vote] at h
  cases hsc : scoreCandidates p cs 0 with
  | error e =>
    simp only [hsc] at h
    exact Except.noConfusion h
  | ok ags =>
    simp only [hsc] at h
    obtain ⟨hlen, hpt⟩ := scoreCandidates_ok p cs 0 ags hsc
    rw [head?_sortByKeyDesc] at h
    cases hfm : firstMaxBy Prod.snd ags with
    | none =>
      simp only [hfm] at h
      exact Except.noConfusion h
    | some top =>
      simp only [hfm] at h
      have hcs' : cs' = updateAt cs top.1 := (Except.ok.inj h).symm
      have hne : ags ≠ [] := by
        intro h0
        rw [h0] at hfm
        exact Option.noConfusion hfm
      obtain ⟨k, hka, heq, hmax, hfirst⟩ := firstMaxBy_spec Prod.snd ags hne
      rw [heq] at hfm
      have htop : top = ags.get ⟨k, hka⟩ := (Option.some.inj hfm).symm
      have hkc : k < cs.length := hlen ▸ hka
      obtain ⟨hidx, hscore⟩ := hpt k hka hkc
      refine ⟨k, hkc, (ags.get ⟨k, hka⟩).2, hscore, ?_, ?_, ?_⟩
      · intro j hj sj hsj
        have hja : j < ags.length := by rw [hlen]; exact hj
        obtain ⟨_, hscj⟩ := hpt j hja hj
        rw [hscj] at hsj
        rw [← Except.ok.inj hsj]
        exact hmax j hja
      · intro j hj sj hsj
        have hja : j < ags.length := hj.trans hka
        obtain ⟨_, hscj⟩ := hpt j hja (hj.trans hkc)
        rw [hscj] at hsj
        rw [← Except.ok.inj hsj]
        exact hfirst j hj
      · rw [hcs', htop, hidx, Nat.zero_add, updateAt, List.get?_eq_get hkc]

end VoteLemmas

section VoteErrorLemmas

lemma scoreCandidates_mismatch (p : Person) :
    ∀ (cs : List Candidate) (k0 : Nat),
      (∃ c ∈ cs, scoreViews c.views p.views = .error .structuralMismatch) →
      scoreCandidates p cs k0 = .error .structuralMismatch := by
  intro cs
  induction cs with
  | nil => intro k0 h; simp at h
  | cons c cs ih =>
    intro k0 h
    rw [scoreCandidates]
    cases hsv : scoreViews c.views p.views with
    | error e =>
      rw [scoreViews_error_eq c.views p.views e hsv]
    | ok s =>
      have htail : ∃ c' ∈ cs, scoreViews c'.views p.views = .error .structuralMismatch := by
        obtain ⟨c', hmem, herr⟩ := h
        rcases List.mem_cons.mp hmem with heq | hmem'
        · rw [heq] at herr
          rw [herr] at hsv
          exact Except.noConfusion hsv
        · exact ⟨c', hmem', herr⟩
      rw [ih (k0 + 1) htail]

lemma vote_mismatch_error {p : Person} {cs : List Candidate}
    (h : ∃ c ∈ cs, ∃ pr ∈ c.views.zip p.views, pr.1.issue.name ≠ pr.2.issue.name) :
    Person.vote p cs = .error .structuralMismatch := by
  have hsc : scoreCandidates p cs 0 = .error .structuralMismatch := by
    apply scoreCandidates_mismatch
    obtain ⟨c, hmem, hpr⟩ := h
    exact ⟨c, hmem, scoreViews_mismatch c.views p.views hpr⟩
  rw [Person.vote]
  simp only [hsc]

lemma vote_empty (p : Person) : Person.vote p [] = .error .indexError := rfl

end VoteErrorLemmas

section ConservationLemmas

lemma sumVotes_cons (c : Candidate) (cs : List Candidate) :
    sumVotes (c :: cs) = c.votes + sumVotes cs := by
  simp [sumVotes]

lemma sumVotes_set_receive :
    ∀ (cs : List Candidate) (k : Nat) (hk : k < cs.length),
      sumVotes (cs.set k ((cs.get ⟨k, hk⟩).receive_vote)) = sumVotes cs + 1 := by
  intro cs
  induction cs with
  | nil => intro k hk; exact absurd hk (Nat.not_lt_zero k)
  | cons c cs ih =>
    intro k hk
    cases k with
    | zero =>
      show sumVotes (c.receive_vote :: cs) = sumVotes (c :: cs) + 1
      simp only [sumVotes_cons, Candidate.receive_vote]
      omega
    | succ k' =>
      have hk' : k' < cs.length := Nat.lt_of_succ_lt_succ hk
      show sumVotes (c :: cs.set k' ((cs.get ⟨k', hk'⟩).receive_vote)) = sumVotes (c :: cs) + 1
      rw [sumVotes_cons, sumVotes_cons, ih k' hk']
      omega

lemma vote_ok_sumVotes {p : Person} {cs cs' : List Candidate}
    (h : Person.vote p cs = .ok cs') : sumVotes cs' = sumVotes cs + 1 := by
  obtain ⟨k, hk, sk, _, _, _, hset⟩ := vote_ok_char h
  rw [hset]
  exact sumVotes_set_receive cs k hk

lemma runVotingPass_sumVotes :
    ∀ (people : List Person) (cs cs' : List Candidate),
      runVotingPass people cs = .ok cs' →
      sumVotes cs' = sumVotes cs + people.length := by
  intro people
  induction people with
  | nil =>
    intro cs cs' h
    rw [runVotingPass] at h
    rw [← Except.ok.inj h]
    simp
  | cons p ps ih =>
    intro cs cs' h
    rw [runVotingPass] at h
    cases hv : p.vote cs with
    | error e =>
      simp only [hv] at h
      exact Except.noConfusion h
    | ok cs1 =>
      simp only [hv] at h
      have := ih cs1 cs' h
      rw [this, vote_ok_sumVotes hv]
      simp only [List.length_cons]
      omega

lemma sumVotes_eq_zero {cs : List Candidate} (h : ∀ c ∈ cs, c.votes = 0) :
    sumVotes cs = 0 := by
  induction cs with
  | nil => rfl
  | cons c cs ih =>
    rw [sumVotes_cons, h c (List.mem_cons_self c cs), ih (fun c' hc' => h c' (List.mem_cons_of_mem c hc'))]

end ConservationLemmas

section MajorityLemmas

lemma majLoop_of_all_le :
    ∀ (l : List (String × Nat)) (b : Nat) (m : Option String),
      (∀ kv ∈ l, kv.2 ≤ b) → majLoop b m l = m := by
  intro l
  induction l with
  | nil => intro b m _; rfl
  | cons kv rest ih =>
    intro b m h
    rw [majLoop, if_neg (not_lt.mpr (h kv (List.mem_cons_self kv rest)))]
    exact ih b m (fun kv' hkv' => h kv' (List.mem_cons_of_mem kv hkv'))

lemma majLoop_first_max :
    ∀ (l : List (String × Nat)) (b : Nat) (m : Option String) (i : Nat) (hi : i < l.length),
      b < (l.get ⟨i, hi⟩).2 →
      (∀ j (hj : j < l.length), (l.get ⟨j, hj⟩).2 ≤ (l.get ⟨i, hi⟩).2) →
      (∀ j (hj : j < i), (l.get ⟨j, hj.trans hi⟩).2 < (l.get ⟨i, hi⟩).2) →
      majLoop b m l = some (l.get ⟨i, hi⟩).1 := by
  intro l
  induction l with
  | nil => intro b m i hi; exact absurd hi (Nat.not_lt_zero i)
  | cons kv rest ih =>
    intro b m i hi hb hmax hfirst
    cases i with
    | zero =>
      have hb0 : b < kv.2 := hb
      rw [majLoop, if_pos hb0]
      have hrest : majLoop kv.2 (some kv.1) rest = some kv.1 := by
        apply majLoop_of_all_le
        intro kv' hkv'
        obtain ⟨n, hn⟩ := List.mem_iff_get.mp hkv'
        have h3 : kv'.2 ≤ kv.2 := by
          rw [← hn]
          exact hmax (n.1 + 1) (by simp)
        exact h3
      rw [hrest]
      rfl
    | succ i' =>
      have hi' : i' < rest.length := Nat.lt_of_succ_lt_succ hi
      have hki : kv.2 < (rest.get ⟨i', hi'⟩).2 := hfirst 0 (Nat.succ_pos i')
      have hmax' : ∀ j (hj : j < rest.length), (rest.get ⟨j, hj⟩).2 ≤ (rest.get ⟨i', hi'⟩).2 := by
        intro j hj
        exact hmax (j + 1) (by simpa using hj)
      have hfirst' : ∀ j (hj : j < i'), (rest.get ⟨j, hj.trans hi'⟩).2 < (rest.get ⟨i', hi'⟩).2 := by
        intro j hj
        exact hfirst (j + 1) (by simpa using hj)
      rw [majLoop]
      by_cases hkb : b < kv.2
      · rw [if_pos hkb]
        exact ih kv.2 (some kv.1) i' hi' hki hmax' hfirst'
      · rw [if_neg hkb]
        have hb' : b < (rest.get ⟨i', hi'⟩).2 := hb
        exact ih b m i' hi' hb' hmax' hfirst'

end MajorityLemmas

section SamplingLemmas

lemma decide_view_weight_nonneg {pv : PopulationView} {d : SampleDraw} {v : View}
    (h : decide_view pv d = some v) : 0 ≤ v.weight := by
  rw [decide_view] at h
  cases h1 : pv.issue.stances.mapM (fun s => pv.proportions.lookup s) with
  | none =>
    simp only [h1] at h
    exact Option.noConfusion h
  | some probs =>
    simp only [h1] at h
    cases h2 : pv.issue.stances.get? d.stanceIdx with
    | none =>
      simp only [h2] at h
      exact Option.noConfusion h
    | some choice =>
      simp only [h2] at h
      rw [← Option.some.inj h]
      exact le_max_left 0 d.weightDraw

lemma decide_views_weights_nonneg :
    ∀ (pvs : List PopulationView) (ds : List SampleDraw) (vs : List View),
      decide_views pvs ds = some vs → ∀ v ∈ vs, 0 ≤ v.weight := by
  intro pvs
  induction pvs with
  | nil =>
    intro ds vs h v hv
    rw [decide_views] at h
    rw [← Option.some.inj h] at hv
    simp at hv
  | cons pv pvs ih =>
    intro ds vs h v hv
    cases ds with
    | nil =>
      rw [decide_views] at h
      exact Option.noConfusion h
    | cons d ds =>
      rw [decide_views] at h
      cases h1 : decide_view pv d with
      | none =>
        simp only [h1] at h
        exact Option.noConfusion h
      | some v0 =>
        simp only [h1] at h
        cases h2 : decide_views pvs ds with
        | none =>
          simp only [h2] at h
          exact Option.noConfusion h
        | some rest =>
          simp only [h2] at h
          rw [← Option.some.inj h] at hv
          rcases List.mem_cons.mp hv with heq | hmem
          · rw [heq]
            exact decide_view_weight_nonneg h1
          · exact ih ds rest h2 v hmem

lemma mkPerson_weights_nonneg {pvs : List PopulationView} {ds : List SampleDraw} {p : Person}
    (h : mkPerson pvs ds = some p) : ∀ v ∈ p.views, 0 ≤ v.weight := by
  rw [mkPerson] at h
  cases h1 : decide_views pvs ds with
  | none =>
    rw [h1] at h
    exact Option.noConfusion h
  | some vs =>
    rw [h1] at h
    have hp : p = ⟨sortByKey (fun v : View => v.issue.name) vs⟩ := (Option.some.inj h).symm
    intro v hv
    rw [hp] at hv
    have hperm := List.perm_insertionSort
      (fun x y : View => x.issue.name ≤ y.issue.name) vs
    have hmem : v ∈ vs := hperm.mem_iff.mp hv
    exact decide_views_weights_nonneg pvs ds vs h1 v hmem

end SamplingLemmas

section SetLemmas

lemma get_set_self {α : Type} :
    ∀ (l : List α) (k : Nat) (a : α) (hk : k < (l.set k a).length),
      (l.set k a).get ⟨k, hk⟩ = a := by
  intro l
  induction l with
  | nil => intro k a hk; simp at hk
  | cons x xs ih =>
    intro k a hk
    cases k with
    | zero => rfl
    | succ k' => exact ih k' a (by simpa using hk)

lemma get_set_other {α : Type} :
    ∀ (l : List α) (k j : Nat) (a : α) (hj : j < (l.set k a).length) (hj' : j < l.length),
      j ≠ k → (l.set k a).get ⟨j, hj⟩ = l.get ⟨j, hj'⟩ := by
  intro l
  induction l with
  | nil => intro k j a hj; simp at hj
  | cons x xs ih =>
    intro k j a hj hj' hne
    cases k with
    | zero =>
      cases j with
      | zero => exact absurd rfl hne
      | succ j' => rfl
    | succ k' =>
      cases j with
      | zero => rfl
      | succ j' =>
        exact ih k' j' a (by simpa using hj) (by simpa using hj')
          (fun hc => hne (by rw [hc]))

end SetLemmas

section VoteSuccessLemmas

lemma scoreCandidates_ok_of_all (p : Person) :
    ∀ (cs : List Candidate) (k0 : Nat),
      (∀ c ∈ cs, ∃ s, scoreViews c.views p.views = .ok s) →
      ∃ ags, scoreCandidates p cs k0 = .ok ags := by
  intro cs
  induction cs with
  | nil => intro k0 _; exact ⟨[], rfl⟩
  | cons c cs ih =>
    intro k0 h
    obtain ⟨s, hs⟩ := h c (List.mem_cons_self c cs)
    obtain ⟨rest, hrest⟩ := ih (k0 + 1) (fun c' hc' => h c' (List.mem_cons_of_mem c hc'))
    refine ⟨(k0, s) :: rest, ?_⟩
    rw [scoreCandidates]
    simp only [hs, hrest]

lemma vote_ok_of_aligned {p : Person} {cs : List Candidate} (hne : cs ≠ [])
    (hal : ∀ c ∈ cs, ∃ s, scoreViews c.views p.views = .ok s) :
    ∃ cs', Person.vote p cs = .ok cs' := by
  obtain ⟨ags, hags⟩ := scoreCandidates_ok_of_all p cs 0 hal
  obtain ⟨hlen, _⟩ := scoreCandidates_ok p cs 0 ags hags
  have hagsne : ags ≠ [] := by
    intro h0
    rw [h0] at hlen
    exact hne (List.length_eq_zero.mp hlen.symm)
  rw [Person.vote]
  simp only [hags, head?_sortByKeyDesc]
  cases hfm : firstMaxBy Prod.snd ags with
  | none => exact absurd ((firstMaxBy_eq_none_iff Prod.snd ags).mp hfm) hagsne
  | some top => exact ⟨updateAt cs top.1, rfl⟩

end VoteSuccessLemmas

/-- C1: for every voter `v` and candidate `c` whose view lists have equal
length and are issue-aligned position by position, the agreement score
computed during the voting pass equals the sum of `v`'s view weights over
exactly those positions where `v`'s stance equals `c`'s stance
(`specScore`), and that score is non-negative whenever all of `v`'s view
weights are non-negative. -/
theorem agreement_score_correct (v : Person) (c : Candidate)
    (hlen : c.views.length = v.views.length)
    (halign : ∀ j (hc : j < c.views.length) (hp : j < v.views.length),
      (c.views.get ⟨j, hc⟩).issue.name = (v.views.get ⟨j, hp⟩).issue.name) :
    scoreViews c.views v.views = .ok (specScore c.views v.views) ∧
    ((∀ w ∈ v.views, 0 ≤ w.weight) → 0 ≤ specScore c.views v.views) :=
  ⟨scoreViews_ok_of_aligned c.views v.views hlen halign,
   fun hw => specScore_nonneg c.views v.views hw⟩

/-- Witness for C1 at a concrete one-issue voter and candidate. -/
theorem agreement_score_correct_witness :
    scoreViews (Candidate.mk "C" [⟨wIssueA, "y", 1⟩] 0).views
        (Person.mk [⟨wIssueA, "y", 2⟩]).views =
      .ok (specScore (Candidate.mk "C" [⟨wIssueA, "y", 1⟩] 0).views
        (Person.mk [⟨wIssueA, "y", 2⟩]).views) ∧
    ((∀ w ∈ (Person.mk [⟨wIssueA, "y", 2⟩]).views, 0 ≤ w.weight) →
      0 ≤ specScore (Candidate.mk "C" [⟨wIssueA, "y", 1⟩] 0).views
        (Person.mk [⟨wIssueA, "y", 2⟩]).views) :=
  agreement_score_correct (Person.mk [⟨wIssueA, "y", 2⟩])
    (Candidate.mk "C" [⟨wIssueA, "y", 1⟩] 0) (by decide) (by decide)

/-- C2: for every voter and every non-empty, issue-aligned candidate list
the voting pass completes; the vote goes to a candidate achieving the
maximum agreement score; when several candidates achieve that maximum the
one appearing earliest in the input ordering receives the vote (every
earlier candidate scores strictly less); and the resulting list updates
exactly one entry, replacing it by `receive_vote` (counter +1). -/
theorem vote_first_max_wins (p : Person) (cs : List Candidate) (hne : cs ≠ [])
    (halign : ∀ c ∈ cs, c.views.length = p.views.length ∧
      ∀ j (hc : j < c.views.length) (hp : j < p.views.length),
        (c.views.get ⟨j, hc⟩).issue.name = (p.views.get ⟨j, hp⟩).issue.name) :
    ∃ cs', Person.vote p cs = .ok cs' ∧
      ∃ k, ∃ hk : k < cs.length, ∃ sk : ℚ,
        scoreViews ((cs.get ⟨k, hk⟩).views) p.views = .ok sk ∧
        (∀ j (hj : j < cs.length) (sj : ℚ),
          scoreViews ((cs.get ⟨j, hj⟩).views) p.views = .ok sj → sj ≤ sk) ∧
        (∀ j (hj : j < k) (sj : ℚ),
          scoreViews ((cs.get ⟨j, hj.trans hk⟩).views) p.views = .ok sj → sj < sk) ∧
        cs' = cs.set k ((cs.get ⟨k, hk⟩).receive_vote) := by
  have hal : ∀ c ∈ cs, ∃ s, scoreViews c.views p.views = .ok s := by
    intro c hc
    obtain ⟨hlen, hnames⟩ := halign c hc
    exact ⟨specScore c.views p.views, scoreViews_ok_of_aligned c.views p.views hlen hnames⟩
  obtain ⟨cs', hcs'⟩ := vote_ok_of_aligned hne hal
  exact ⟨cs', hcs', vote_ok_char hcs'⟩

/-- Witness for C2: two candidates with empty view lists force a tie at
score 0; the vote goes to the first. -/
theorem vote_first_max_wins_witness :
    ∃ cs', Person.vote (Person.mk []) [wTieA, wTieB] = .ok cs' ∧
      ∃ k, ∃ hk : k < ([wTieA, wTieB] : List Candidate).length, ∃ sk : ℚ,
        scoreViews ((([wTieA, wTieB] : List Candidate).get ⟨k, hk⟩).views)
          (Person.mk []).views = .ok sk ∧
        (∀ j (hj : j < ([wTieA, wTieB] : List Candidate).length) (sj : ℚ),
          scoreViews ((([wTieA, wTieB] : List Candidate).get ⟨j, hj⟩).views)
            (Person.mk []).views = .ok sj → sj ≤ sk) ∧
        (∀ j (hj : j < k) (sj : ℚ),
          scoreViews ((([wTieA, wTieB] : List Candidate).get ⟨j, hj.trans hk⟩).views)
            (Person.mk []).views = .ok sj → sj < sk) ∧
        cs' = ([wTieA, wTieB] : List Candidate).set k
          ((([wTieA, wTieB] : List Candidate).get ⟨k, hk⟩).receive_vote) :=
  vote_first_max_wins (Person.mk []) [wTieA, wTieB] (by decide) (by decide)

/-- C3: after a voting pass in which every generated voter (across all
populations, flattened in population order) votes exactly once, the sum
of all candidates' vote counters equals the total number of voters, for
any configuration with at least one candidate and all counters starting
at zero. -/
theorem vote_count_conservation (pops : List (List Person)) (cs cs' : List Candidate)
    (hzero : ∀ c ∈ cs, c.votes = 0) (_hne : cs ≠ [])
    (hrun : runVotingPass pops.flatten cs = .ok cs') :
    sumVotes cs' = (pops.map List.length).sum := by
  have h1 := runVotingPass_sumVotes pops.flatten cs cs' hrun
  rw [h1, sumVotes_eq_zero hzero, List.length_flatten]
  simp

/-- Witness for C3: one population with one voter, one candidate. -/
theorem vote_count_conservation_witness :
    sumVotes [wTieA.receive_vote] =
      (([[Person.mk []]] : List (List Person)).map List.length).sum :=
  vote_count_conservation [[Person.mk []]] [wTieA] [wTieA.receive_vote]
    (by decide) (by decide) (by decide)

/-- C4: the majority-position synthesizer, for one issue's tally (keys in
the issue's declared stance-list order), returns `none` when every
stance's count is zero, and otherwise returns the stance at the first
position attaining the (positive) maximum count — so ties go to the
stance occurring first in the declared order. -/
theorem get_majority_stance_correct (iv : IssueVotes) :
    ((∀ kv ∈ iv.stance_votes, kv.2 = 0) → iv.get_majority_stance = none) ∧
    (∀ i (hi : i < iv.stance_votes.length),
      0 < (iv.stance_votes.get ⟨i, hi⟩).2 →
      (∀ j (hj : j < iv.stance_votes.length),
        (iv.stance_votes.get ⟨j, hj⟩).2 ≤ (iv.stance_votes.get ⟨i, hi⟩).2) →
      (∀ j (hj : j < i),
        (iv.stance_votes.get ⟨j, hj.trans hi⟩).2 < (iv.stance_votes.get ⟨i, hi⟩).2) →
      iv.get_majority_stance = some (iv.stance_votes.get ⟨i, hi⟩).1) := by
  constructor
  · intro h
    exact majLoop_of_all_le iv.stance_votes 0 none (fun kv hkv => le_of_eq (h kv hkv))
  · intro i hi hpos hmax hfirst
    exact majLoop_first_max iv.stance_votes 0 none i hi hpos hmax hfirst

/-- Witness for C4: a tally with a tie between the first two stances; the
first one in declared order is selected. -/
theorem get_majority_stance_correct_witness :
    IssueVotes.get_majority_stance ⟨wIssueA, [("a", 2), ("b", 2), ("c", 1)]⟩ =
      some (((⟨wIssueA, [("a", 2), ("b", 2), ("c", 1)]⟩ :
        IssueVotes).stance_votes.get ⟨0, by decide⟩).1) :=
  (get_majority_stance_correct ⟨wIssueA, [("a", 2), ("b", 2), ("c", 1)]⟩).2 0 (by decide)
    (by decide) (by decide) (by decide)

/-- C5: evidence for the code bug — when a candidate's views omit a
declared issue, `generate_candidates` raises no error at all: the `zip`
silently truncates, and the remaining stance is even attached to the
wrong issue (here the `banana` stance ends up on the `apple` issue); no
`ConfigError` exists anywhere in the code. -/
theorem generate_candidates_missing_issue_silent :
    generate_candidates [⟨"X", [⟨"banana", "y"⟩]⟩] [wIssueApple, wIssueBanana] =
      [⟨"X", [⟨wIssueApple, "y", 1⟩], 0⟩] := by decide

/-- C6 counterexample: with two candidates tied on votes, the loser
reported by the code (`candidates[-1]` of the stable descending sort) is
the one appearing LATER in the input order, not the earlier one the claim
asserts. -/
theorem election_loser_tie_counterexample :
    electionLoser [wTieA, wTieB] = some wTieB ∧ wTieB ≠ wTieA := by decide

/-- C6 amended: candidates are ranked by vote count descending; the
winner is the first candidate in input order attaining the maximum vote
count (`firstMaxBy`), while the loser is the LAST candidate in input
order attaining the minimum vote count (`lastMinBy`) — so winner ties are
broken in favour of the earlier candidate, but loser ties in favour of
the later one. -/
theorem winner_loser_rank (cs : List Candidate) :
    List.Sorted (fun x y => y.votes ≤ x.votes) (rankCandidates cs) ∧
    electionWinner cs = firstMaxBy Candidate.votes cs ∧
    electionLoser cs = lastMinBy Candidate.votes cs :=
  ⟨List.sorted_insertionSort _ cs, head?_sortByKeyDesc Candidate.votes cs,
    getLast?_sortByKeyDesc Candidate.votes cs⟩

/-- C7: every sampled view stores as weight the normal-draw outcome
clamped to a minimum of 0 (`max 0 draw`), so every weight in a generated
voter's views is non-negative, for all random draw outcomes. -/
theorem sampled_weights_nonneg (pvs : List PopulationView) (ds : List SampleDraw) (p : Person)
    (h : mkPerson pvs ds = some p) : ∀ v ∈ p.views, 0 ≤ v.weight :=
  mkPerson_weights_nonneg h

/-- Witness for C7: a draw of -5 is clamped to weight 0, which is
non-negative. -/
theorem sampled_weights_nonneg_witness :
    0 ≤ (View.mk wIssueA "y" 0).weight :=
  sampled_weights_nonneg [⟨wIssueA, [("y", 1), ("n", 0)], 0, 1⟩] [⟨0, -5⟩]
    (Person.mk [⟨wIssueA, "y", 0⟩]) (by decide) (View.mk wIssueA "y" 0) (by decide)

/-- C8: if at any compared position (a position of the truncating `zip`)
the voter's and a candidate's views reference issues with different
names, the voting procedure raises (`structuralMismatch`) and never
returns an updated candidate list, so no vote counter changes. -/
theorem vote_mismatch_fatal (p : Person) (cs : List Candidate)
    (h : ∃ c ∈ cs, ∃ pr ∈ c.views.zip p.views, pr.1.issue.name ≠ pr.2.issue.name) :
    Person.vote p cs = .error .structuralMismatch ∧
    ¬∃ cs', Person.vote p cs = .ok cs' := by
  have he := vote_mismatch_error h
  refine ⟨he, ?_⟩
  rintro ⟨cs', hok⟩
  rw [he] at hok
  exact Except.noConfusion hok

/-- Witness for C8: a voter on issue `a` scored against a candidate whose
single view is on issue `b`. -/
theorem vote_mismatch_fatal_witness :
    Person.vote (Person.mk [⟨wIssueA, "y", 1⟩]) [⟨"D", [⟨wIssueB, "y", 1⟩], 0⟩] =
        .error .structuralMismatch ∧
    ¬∃ cs', Person.vote (Person.mk [⟨wIssueA, "y", 1⟩]) [⟨"D", [⟨wIssueB, "y", 1⟩], 0⟩] =
        .ok cs' :=
  vote_mismatch_fatal (Person.mk [⟨wIssueA, "y", 1⟩]) [⟨"D", [⟨wIssueB, "y", 1⟩], 0⟩]
    (by decide)

/-- C9: on an empty candidate list the decision procedure hits
`agreements[0]` on the empty sorted list and raises the Python
`IndexError` (no precondition is checked first), rather than returning
normally. -/
theorem vote_empty_index_error (p : Person) :
    Person.vote p [] = .error .indexError :=
  vote_empty p

/-- C10: a successful vote changes only the chosen candidate's vote
counter: the candidate list keeps its length, the chosen entry keeps its
name and views with its counter incremented by exactly 1, and every other
entry is unchanged.  (The voter itself is untouched: `Person.vote` reads
`p` but the embedding returns only the updated candidate list, matching
the source, which never assigns to `self.views`.) -/
theorem vote_frame_effect (p : Person) (cs cs' : List Candidate)
    (h : Person.vote p cs = .ok cs') :
    cs'.length = cs.length ∧
    ∃ k, ∃ hk' : k < cs'.length, ∃ hk : k < cs.length,
      (cs'.get ⟨k, hk'⟩).name = (cs.get ⟨k, hk⟩).name ∧
      (cs'.get ⟨k, hk'⟩).views = (cs.get ⟨k, hk⟩).views ∧
      (cs'.get ⟨k, hk'⟩).votes = (cs.get ⟨k, hk⟩).votes + 1 ∧
      ∀ j (hj' : j < cs'.length) (hj : j < cs.length), j ≠ k →
        cs'.get ⟨j, hj'⟩ = cs.get ⟨j, hj⟩ := by
  obtain ⟨k, hk, sk, _hs, _hm, _hf, hset⟩ := vote_ok_char h
  subst hset
  have hlen : (cs.set k ((cs.get ⟨k, hk⟩).receive_vote)).length = cs.length :=
    List.length_set cs k _
  refine ⟨hlen, k, ?_, hk, ?_, ?_, ?_, ?_⟩
  · rw [hlen]
    exact hk
  · rw [get_set_self]
    rfl
  · rw [get_set_self]
    rfl
  · rw [get_set_self]
    rfl
  · intro j hj' hj hne
    exact get_set_other cs k j _ hj' hj hne

/-- Witness for C10: two empty-view candidates with distinct counters;
only the first (chosen) one changes. -/
theorem vote_frame_effect_witness :
    ([(⟨"E", [], 6⟩ : Candidate), ⟨"F", [], 7⟩] : List Candidate).length =
      ([(⟨"E", [], 5⟩ : Candidate), ⟨"F", [], 7⟩] : List Candidate).length ∧
    ∃ k, ∃ hk' : k < ([(⟨"E", [], 6⟩ : Candidate), ⟨"F", [], 7⟩] : List Candidate).length,
      ∃ hk : k < ([(⟨"E", [], 5⟩ : Candidate), ⟨"F", [], 7⟩] : List Candidate).length,
      ((([(⟨"E", [], 6⟩ : Candidate), ⟨"F", [], 7⟩] : List Candidate)).get ⟨k, hk'⟩).name =
        ((([(⟨"E", [], 5⟩ : Candidate), ⟨"F", [], 7⟩] : List Candidate)).get ⟨k, hk⟩).name ∧
      ((([(⟨"E", [], 6⟩ : Candidate), ⟨"F", [], 7⟩] : List Candidate)).get ⟨k, hk'⟩).views =
        ((([(⟨"E", [], 5⟩ : Candidate), ⟨"F", [], 7⟩] : List Candidate)).get ⟨k, hk⟩).views ∧
      ((([(⟨"E", [], 6⟩ : Candidate), ⟨"F", [], 7⟩] : List Candidate)).get ⟨k, hk'⟩).votes =
        ((([(⟨"E", [], 5⟩ : Candidate), ⟨"F", [], 7⟩] : List Candidate)).get ⟨k, hk⟩).votes + 1 ∧
      ∀ j (hj' : j < ([(⟨"E", [], 6⟩ : Candidate), ⟨"F", [], 7⟩] : List Candidate).length)
        (hj : j < ([(⟨"E", [], 5⟩ : Candidate), ⟨"F", [], 7⟩] : List Candidate).length), j ≠ k →
        (([(⟨"E", [], 6⟩ : Candidate), ⟨"F", [], 7⟩] : List Candidate)).get ⟨j, hj'⟩ =
          (([(⟨"E", [], 5⟩ : Candidate), ⟨"F", [], 7⟩] : List Candidate)).get ⟨j, hj⟩ :=
  vote_frame_effect (Person.mk []) [⟨"E", [], 5⟩, ⟨"F", [], 7⟩]
    [⟨"E", [], 6⟩, ⟨"F", [], 7⟩] (by decide)

end ElectionSim
